import Mathlib

/-!
Verification of the multi-agent generation pipeline in `src/index.tsx`
("Gemini 2.5 Heavy"): fan-out generation, peer-critique refinement, and
streaming fan-in synthesis, together with the surrounding submission /
turn-log state machine.

The definitions below are shallow embeddings of the corresponding
TypeScript functions and inline expressions; each carries a reference to
the source location it was translated from.
-/

namespace GeminiHeavy

/-- Number of concurrent agents, `NUM_AGENTS` (src/index.tsx:8). -/
def NUM_AGENTS : Nat := 4

/-! ### Refinement stage: per-agent critique context (src/index.tsx:294-311) -/

/-- Embedding of `initialAnswers.filter((_, i) => i !== index)`
(src/index.tsx:295): keep every answer whose position differs from
`index`.  JavaScript `Array.prototype.filter` passes the element index to
the callback, which we model by filtering the enumerated list. -/
def otherAnswers (initialAnswers : List String) (index : Nat) : List String :=
  ((initialAnswers.enum).filter (fun p => p.1 != index)).map Prod.snd

/-- Embedding of
`otherAnswers.map((answer, i) => `${i + 1}. "${answer}"`).join('\n')`
(src/index.tsx:296): peer answers relabeled `1.`, `2.`, ... in order. -/
def otherAnswersText (initialAnswers : List String) (index : Nat) : String :=
  String.intercalate "\n"
    (((otherAnswers initialAnswers index).enum).map
      (fun p => toString (p.1 + 1) ++ ". \"" ++ p.2 ++ "\""))

/-- Fixed tail of the refinement context template (src/index.tsx:297). -/
def refinementContextTail : String :=
  "\n\nBased on this context, critically re-evaluate and provide a new, improved response to the original query."

/-- Embedding of the `refinementContext` template string built for the
agent at position `index` holding answer `initialAnswer`
(src/index.tsx:297). -/
def refinementContext (initialAnswers : List String) (index : Nat)
    (initialAnswer : String) : String :=
  "My initial response was: \"" ++ initialAnswer ++
    "\". The other agents responded with:\n" ++
    otherAnswersText initialAnswers index ++ refinementContextTail

/-- The critique contexts for all agents, one per initial answer, as
built by `initialAnswers.map((initialAnswer, index) => ...)`
(src/index.tsx:294-297). -/
def refinementContexts (initialAnswers : List String) : List String :=
  (initialAnswers.enum).map
    (fun p => refinementContext initialAnswers p.1 p.2)

/-! Helper lemmas about enumeration. -/

theorem filter_enumFrom_of_lt {α : Type} (l : List α) :
    ∀ (m k : Nat), k < m →
      (List.enumFrom m l).filter (fun p => p.1 != k) = List.enumFrom m l := by
  induction l with
  | nil => intro m k _; rfl
  | cons a l ih =>
    intro m k hk
    have hne : m ≠ k := Nat.ne_of_gt hk
    simp only [List.enumFrom_cons]
    rw [List.filter_cons_of_pos (by simpa using hne)]
    simp only [ih (m + 1) k (Nat.lt_succ_of_lt hk)]

theorem filter_enumFrom_ne_map_snd {α : Type} (l : List α) :
    ∀ (m i : Nat),
      ((List.enumFrom m l).filter (fun p => p.1 != (m + i))).map Prod.snd
        = l.eraseIdx i := by
  induction l with
  | nil => intro m i; rfl
  | cons a l ih =>
    intro m i
    cases i with
    | zero =>
      simp only [List.enumFrom_cons]
      rw [List.filter_cons_of_neg (by simp)]
      rw [filter_enumFrom_of_lt l (m + 1) (m + 0) (by omega)]
      simp [List.enumFrom_map_snd]
    | succ i =>
      simp only [List.enumFrom_cons]
      rw [List.filter_cons_of_pos (by simp)]
      have := ih (m + 1) i
      rw [show m + 1 + i = m + (i + 1) by omega] at this
      simp only [List.map_cons, this, List.eraseIdx_cons_succ]

/-- The core structural fact behind the critique context: excluding
position `index` from the enumerated answer list leaves exactly the
answers with the agent's own entry erased, in original relative order. -/
theorem otherAnswers_eq_eraseIdx (initialAnswers : List String) (index : Nat) :
    otherAnswers initialAnswers index = initialAnswers.eraseIdx index := by
  have := filter_enumFrom_ne_map_snd initialAnswers 0 index
  simpa [otherAnswers, List.enum] using this

theorem enumFrom_map_fst_add_one {α : Type} (l : List α) :
    ∀ m : Nat, (List.enumFrom m l).map (fun p => p.1 + 1)
      = List.range' (m + 1) l.length := by
  induction l with
  | nil => intro m; rfl
  | cons a l ih =>
    intro m
    simp only [List.enumFrom_cons, List.map_cons, List.length_cons,
      List.range'_succ, ih (m + 1)]

theorem getElem?_enum {α : Type} (l : List α) (i : Nat) :
    l.enum[i]? = l[i]?.map (fun a => (i, a)) := by
  simp [List.enum, List.getElem?_enumFrom 0 l i]

/-- Claim C3: for every agent index `i < N` and every sequence of `N`
initial answers, the critique context for agent `i` lists as peers
exactly the other `N - 1` answers (the agent's own entry erased, original
relative order preserved, so no gaps), relabels them `1..N-1`, and the
context slot for the agent's own answer is the answer at position `i`
itself, never duplicated among the peers. -/
theorem refinement_context_peers (initialAnswers : List String) (index : Nat)
    (h : index < initialAnswers.length) :
    otherAnswers initialAnswers index = initialAnswers.eraseIdx index
    ∧ (otherAnswers initialAnswers index).length = initialAnswers.length - 1
    ∧ ((otherAnswers initialAnswers index).enum).map (fun p => p.1 + 1)
        = List.range' 1 (initialAnswers.length - 1)
    ∧ (refinementContexts initialAnswers)[index]?
        = (initialAnswers[index]?).map
            (fun a => refinementContext initialAnswers index a) := by
  refine ⟨otherAnswers_eq_eraseIdx initialAnswers index, ?_, ?_, ?_⟩
  · rw [otherAnswers_eq_eraseIdx]
    exact List.length_eraseIdx_of_lt h
  · have hmap := enumFrom_map_fst_add_one (otherAnswers initialAnswers index) 0
    rw [otherAnswers_eq_eraseIdx] at hmap ⊢
    rw [List.enum, hmap, List.length_eraseIdx_of_lt h]
  · rw [refinementContexts, List.getElem?_map, getElem?_enum]
    cases initialAnswers[index]? <;> rfl

/-- Witness for `refinement_context_peers` at a concrete four-answer run
(the source's `NUM_AGENTS = 4`), agent index 2. -/
theorem refinement_context_peers_witness :
    2 < (["a0", "a1", "a2", "a3"] : List String).length
    ∧ (otherAnswers ["a0", "a1", "a2", "a3"] 2
          = (["a0", "a1", "a2", "a3"] : List String).eraseIdx 2
        ∧ (otherAnswers ["a0", "a1", "a2", "a3"] 2).length
            = (["a0", "a1", "a2", "a3"] : List String).length - 1
        ∧ ((otherAnswers ["a0", "a1", "a2", "a3"] 2).enum).map (fun p => p.1 + 1)
            = List.range' 1 ((["a0", "a1", "a2", "a3"] : List String).length - 1)
        ∧ (refinementContexts ["a0", "a1", "a2", "a3"])[2]?
            = ((["a0", "a1", "a2", "a3"] : List String)[2]?).map
                (fun a => refinementContext ["a0", "a1", "a2", "a3"] 2 a)) :=
  ⟨by decide, refinement_context_peers ["a0", "a1", "a2", "a3"] 2 (by decide)⟩

/-! ### Synthesis stage: streaming accumulation (src/index.tsx:335-350)

The stream loop keeps a local accumulator `finalResponseText`, appends
each chunk's text to it (`finalResponseText += chunk.text`), and after
every chunk publishes the accumulator as the visible text of the
in-flight model turn. -/

/-- Embedding of the accumulator: the value of `finalResponseText` after
the whole stream, starting from `''` (src/index.tsx:335,339). -/
def finalResponseText (deltas : List String) : String :=
  deltas.foldl (fun acc d => acc ++ d) ""

/-- The successive snapshots published by `setMessages` inside the stream
loop (src/index.tsx:345-349): one entry per processed delta, each the
accumulator value right after that delta was appended. -/
def streamSnapshots : String → List String → List String
  | _, [] => []
  | acc, d :: rest => (acc ++ d) :: streamSnapshots (acc ++ d) rest

/-- All texts published for the in-flight turn over the stream's life. -/
def publishedTexts (deltas : List String) : List String :=
  streamSnapshots "" deltas

theorem foldl_append_string (l : List String) :
    ∀ (a b : String),
      l.foldl (fun acc d => acc ++ d) (a ++ b)
        = a ++ l.foldl (fun acc d => acc ++ d) b := by
  induction l with
  | nil => intro a b; rfl
  | cons c l ih =>
    intro a b
    simp only [List.foldl_cons, String.append_assoc, ih]

theorem string_join_cons (s : String) (l : List String) :
    String.join (s :: l) = s ++ String.join l := by
  show l.foldl (fun acc d => acc ++ d) ("" ++ s) = s ++ String.join l
  rw [String.empty_append]
  have := foldl_append_string l s ""
  rw [String.append_empty] at this
  exact this

theorem streamSnapshots_eq (deltas : List String) :
    ∀ acc : String,
      streamSnapshots acc deltas
        = (List.range deltas.length).map
            (fun k => acc ++ String.join (deltas.take (k + 1))) := by
  induction deltas with
  | nil => intro acc; rfl
  | cons d rest ih =>
    intro acc
    rw [streamSnapshots, List.length_cons, List.range_succ_eq_map,
      List.map_cons, List.map_map, ih (acc ++ d)]
    refine congrArg₂ List.cons ?_ ?_
    · rw [List.take_succ_cons, List.take_zero, string_join_cons]
      simp [String.join]
    · refine List.map_congr_left ?_
      intro k _
      simp only [Function.comp_apply, Nat.succ_eq_add_one, List.take_succ_cons,
        string_join_cons, String.append_assoc]

theorem string_join_take_le (l : List String) (m n : Nat) (h : m ≤ n) :
    (String.join (l.take m)).length ≤ (String.join (l.take n)).length := by
  have hsplit : l.take n = l.take m ++ (l.drop m).take (n - m) := by
    rw [← List.take_add]
    rw [show m + (n - m) = n by omega]
  have hjoin : ∀ (u v : List String),
      String.join (u ++ v) = String.join u ++ String.join v := by
    intro u v
    induction u with
    | nil => simp [String.join]
    | cons a u ihu =>
      rw [List.cons_append, string_join_cons, string_join_cons, ihu,
        String.append_assoc]
  rw [hsplit, hjoin, String.length_append]
  omega

/-- Claim C5: the text published for the in-flight model turn after the
k-th delta is exactly the concatenation of deltas 1..k in arrival order
(so nothing is dropped, reordered, or applied twice), the accumulated
final text is the concatenation of the whole stream, and the published
text lengths are monotonically non-decreasing. -/
theorem stream_snapshots_are_prefix_concats (deltas : List String) :
    publishedTexts deltas
      = (List.range deltas.length).map
          (fun k => String.join (deltas.take (k + 1)))
    ∧ finalResponseText deltas = String.join deltas
    ∧ (publishedTexts deltas).Pairwise
        (fun a b => a.length ≤ b.length) := by
  have heq : publishedTexts deltas
      = (List.range deltas.length).map
          (fun k => String.join (deltas.take (k + 1))) := by
    rw [publishedTexts, streamSnapshots_eq deltas ""]
    refine List.map_congr_left ?_
    intro k _
    rw [String.empty_append]
  refine ⟨heq, rfl, ?_⟩
  rw [heq]
  rw [List.pairwise_map]
  have hlt := List.pairwise_lt_range deltas.length
  refine hlt.imp_of_mem ?_
  intro a b _ _ hab
  exact string_join_take_le deltas (a + 1) (b + 1) (by omega)

/-! ### Citations: filtering and deduplication (src/index.tsx:352-355)

Each streamed grounding chunk may carry a `web` record with a `uri` and
`title`.  On stream completion the code computes

  const sources = allGroundingChunks
    .map((chunk) => chunk.web)
    .filter((web) => !!web && !!web.uri)
    .filter((web, index, self) => index === self.findIndex(w => w.uri === web.uri));
-/

/-- A `{ uri, title }` citation record (`Source`, src/index.tsx:13-16). -/
structure WebInfo where
  uri : String
  title : String
deriving DecidableEq

/-- The `.map(chunk => chunk.web).filter(web => !!web && !!web.uri)` steps
(src/index.tsx:353-354): drop chunks without a web record and entries
with an empty uri. -/
def validWebs (chunks : List (Option WebInfo)) : List WebInfo :=
  (chunks.filterMap id).filter (fun w => w.uri != "")

/-- The `.filter((web, index, self) => index === self.findIndex(w => w.uri
=== web.uri))` step (src/index.tsx:355): keep an entry exactly when its
position is the first position carrying its uri. -/
def dedupByUri (l : List WebInfo) : List WebInfo :=
  ((l.enum).filter
      (fun p => l.findIdx (fun w => w.uri == p.2.uri) == p.1)).map Prod.snd

/-- The final `sources` list attached to the finalized turn
(src/index.tsx:352-355). -/
def sources (chunks : List (Option WebInfo)) : List WebInfo :=
  dedupByUri (validWebs chunks)

theorem mem_of_mem_dedupByUri {l : List WebInfo} {w : WebInfo}
    (h : w ∈ dedupByUri l) : w ∈ l := by
  rw [dedupByUri] at h
  obtain ⟨p, hp, hsnd⟩ := List.mem_map.mp h
  have hpmem : p ∈ l.enum := (List.mem_filter.mp hp).1
  have : p.2 ∈ (l.enum).map Prod.snd := List.mem_map.mpr ⟨p, hpmem, rfl⟩
  rw [List.enum_map_snd] at this
  rw [← hsnd]
  exact this

theorem getElem?_of_mem_enum {α : Type} {l : List α} {p : Nat × α}
    (h : p ∈ l.enum) : l[p.1]? = some p.2 := by
  obtain ⟨k, hk⟩ := List.mem_iff_getElem?.mp h
  rw [getElem?_enum] at hk
  cases hl : l[k]? with
  | none => rw [hl] at hk; cases hk
  | some a =>
    rw [hl] at hk
    cases hk
    exact hl

theorem find?_eq_getElem?_findIdx {α : Type} (p : α → Bool) (l : List α) :
    l.find? p = l[l.findIdx p]? := by
  induction l with
  | nil => rfl
  | cons a l ih =>
    cases hpa : p a with
    | true =>
      rw [List.find?_cons_of_pos l hpa, List.findIdx_cons, hpa, cond_true,
        List.getElem?_cons_zero]
    | false =>
      rw [List.find?_cons_of_neg l (by simp [hpa]), List.findIdx_cons, hpa,
        cond_false, ih, List.getElem?_cons_succ]

/-- Claim C4: the final sources list contains only entries with a
non-empty uri, no two entries share a uri, the list is a subsequence of
the valid citation stream (so relative order is arrival order), every
streamed uri is represented, and each surviving entry is the first
occurrence of its uri in the stream. -/
theorem sources_dedup_spec (chunks : List (Option WebInfo)) :
    ((sources chunks).all (fun w => w.uri != "")) = true
    ∧ ((sources chunks).map WebInfo.uri).Nodup
    ∧ (sources chunks).Sublist (validWebs chunks)
    ∧ ((validWebs chunks).all
        (fun w => (sources chunks).any (fun v => v.uri == w.uri))) = true
    ∧ ((sources chunks).all
        (fun v => decide
          ((validWebs chunks).find? (fun w => w.uri == v.uri) = some v))) = true := by
  refine ⟨?_, ?_, ?_, ?_, ?_⟩
  · rw [List.all_eq_true]
    intro w hw
    have hmem : w ∈ validWebs chunks := mem_of_mem_dedupByUri hw
    exact (List.mem_filter.mp hmem).2
  · -- pairwise-distinct uris: two kept entries with equal uri would both
    -- sit at the first index of that uri, contradicting distinct positions
    rw [sources, dedupByUri, List.map_map]
    have henum : ((validWebs chunks).enum).Pairwise
        (fun p q : Nat × WebInfo => p.1 < q.1) := by
      have hr := List.pairwise_lt_range (validWebs chunks).length
      rw [← List.enum_map_fst (validWebs chunks)] at hr
      exact List.pairwise_map.mp hr
    have hfilter : (((validWebs chunks).enum).filter
          (fun p => (validWebs chunks).findIdx
            (fun w => w.uri == p.2.uri) == p.1)).Pairwise
        (fun p q : Nat × WebInfo => p.1 < q.1) :=
      List.Pairwise.sublist (List.filter_sublist _) henum
    have hne := hfilter.imp_of_mem (S := fun p q : Nat × WebInfo =>
        (WebInfo.uri ∘ Prod.snd) p ≠ (WebInfo.uri ∘ Prod.snd) q) ?_
    · exact List.pairwise_map.mpr hne
    · intro p q hp hq hlt
      have hp2 := (List.mem_filter.mp hp).2
      have hq2 := (List.mem_filter.mp hq).2
      simp only [beq_iff_eq] at hp2 hq2
      intro huri
      simp only [Function.comp_apply] at huri
      rw [huri] at hp2
      omega
  · rw [sources, dedupByUri]
    have h1 : List.Sublist
        (((validWebs chunks).enum).filter
          (fun p => (validWebs chunks).findIdx (fun w => w.uri == p.2.uri) == p.1))
        ((validWebs chunks).enum) := List.filter_sublist _
    have h2 := h1.map Prod.snd
    rw [List.enum_map_snd] at h2
    exact h2
  · rw [List.all_eq_true]
    intro w hw
    rw [List.any_eq_true]
    have hex : ∃ x ∈ validWebs chunks, (fun v => v.uri == w.uri) x :=
      ⟨w, hw, by simp⟩
    have hjlt := List.findIdx_lt_length_of_exists hex
    obtain ⟨x, hx⟩ : ∃ x, (validWebs chunks)[(validWebs chunks).findIdx
        (fun v => v.uri == w.uri)]? = some x :=
      ⟨_, List.getElem?_eq_getElem hjlt⟩
    have hpx :=
      List.findIdx_of_getElem?_eq_some (p := fun v : WebInfo => v.uri == w.uri) hx
    have hxuri : x.uri = w.uri := by simpa using hpx
    refine ⟨x, ?_, by simp [hxuri]⟩
    rw [sources, dedupByUri]
    refine List.mem_map.mpr
      ⟨((validWebs chunks).findIdx (fun v => v.uri == w.uri), x), ?_, rfl⟩
    refine List.mem_filter.mpr ⟨?_, ?_⟩
    · rw [List.mem_iff_getElem?]
      exact ⟨(validWebs chunks).findIdx (fun v => v.uri == w.uri),
        by rw [getElem?_enum, hx]; rfl⟩
    · simp only [beq_iff_eq]
      simp only [hxuri]
  · rw [List.all_eq_true]
    intro v hv
    rw [decide_eq_true_eq]
    rw [sources, dedupByUri] at hv
    obtain ⟨p, hp, hsnd⟩ := List.mem_map.mp hv
    have hpmem : p ∈ (validWebs chunks).enum := (List.mem_filter.mp hp).1
    have hpfirst := (List.mem_filter.mp hp).2
    simp only [beq_iff_eq] at hpfirst
    have hget : (validWebs chunks)[p.1]? = some p.2 := getElem?_of_mem_enum hpmem
    rw [find?_eq_getElem?_findIdx]
    rw [← hsnd, hpfirst, hget]

/-! ### Data model and runner state machine (src/index.tsx:21-27, 172-379)

A `Message` is one turn of the log (interface `Message`,
src/index.tsx:21-27): a role, text parts, and optional image, sources and
work-trace fields.  The `App` component state relevant to the pipeline is
`messages`, `isLoading`, `image`, plus the position of the in-flight run
(which stage `handleSubmit` is suspended at) and the stream accumulator
`finalResponseText`.  The submission entry point is the form
(src/index.tsx:436-455): its text input and submit button carry
`disabled={isLoading}`, so a submit event is deliverable exactly when
`isLoading` is false; a delivered submit runs `handleSubmit`
(src/index.tsx:237-379). -/

/-- The `work` transparency record (interface `Work`, src/index.tsx:17-20). -/
structure Work where
  initialResponses : List String
  refinedResponses : List String
deriving DecidableEq

/-- Message roles (src/index.tsx:22). -/
inductive Role
  | user
  | model
deriving DecidableEq

/-- One turn of the log (interface `Message`, src/index.tsx:21-27).
`parts` holds the text of each `{ text }` part. -/
structure Message where
  role : Role
  parts : List String
  image : Option String
  sources : Option (List WebInfo)
  work : Option Work
deriving DecidableEq

/-- Stage the in-flight `handleSubmit` invocation is suspended at:
`idle` (none), `fanOut` (awaiting the initial `Promise.all`,
src/index.tsx:289), `refine` (awaiting the refinement `Promise.all`,
src/index.tsx:312), `streaming` (consuming the synthesis stream,
src/index.tsx:338-350). -/
inductive Phase
  | idle
  | fanOut
  | refine
  | streaming
deriving DecidableEq

/-- The pipeline-relevant component state of `App` (src/index.tsx:173-182)
plus the in-flight position and the stream accumulator. -/
structure AppState where
  messages : List Message
  isLoading : Bool
  image : Option String
  phase : Phase
  buffer : String
deriving DecidableEq

/-- Initial component state (src/index.tsx:173-178). -/
def initState : AppState :=
  { messages := [], isLoading := false, image := none,
    phase := Phase.idle, buffer := "" }

/-- The user turn appended on submission (src/index.tsx:246). -/
def userMessage (input : String) (img : Option String) : Message :=
  { role := Role.user, parts := [input], image := img,
    sources := none, work := none }

/-- The empty model turn appended when streaming starts
(src/index.tsx:321). -/
def placeholderMessage : Message :=
  { role := Role.model, parts := [""], image := none,
    sources := none, work := none }

/-- The single error turn appended by the catch block
(src/index.tsx:375-377), for a thrown `Error` with message `e`. -/
def errorTurn (e : String) : Message :=
  { role := Role.model,
    parts := ["Sorry, I encountered an error: " ++ e ++ ". Please try again."],
    image := none, sources := none, work := none }

/-- Embedding of `parts[0].text = t` on a parts array
(src/index.tsx:347). -/
def setFirstPart : List String → String → List String
  | [], _ => []
  | _ :: rest, t => t :: rest

/-- Embedding of the per-delta publication
`newMessages[newMessages.length - 1].parts[0].text = finalResponseText`
(src/index.tsx:345-349): replace the last message's first text part. -/
def setLastText (msgs : List Message) (t : String) : List Message :=
  match msgs.getLast? with
  | none => msgs
  | some last => msgs.dropLast ++ [{ last with parts := setFirstPart last.parts t }]

/-- Embedding of the completion update (src/index.tsx:362-368): one
`setMessages` call that writes `sources` (omitted when the deduplicated
list is empty: `sources.length > 0 ? sources : undefined`) and `work`
onto the last (placeholder) message. -/
def finalizeTurn (msgs : List Message) (srcs : List WebInfo) (w : Work) :
    List Message :=
  match msgs.getLast? with
  | none => msgs
  | some last =>
      msgs.dropLast ++
        [{ last with
            sources := if srcs.length > 0 then some srcs else none,
            work := some w }]

/-- Events driving the runner: a form submission with the given input
text, resolution of the fan-out barrier (src/index.tsx:289), resolution
of the refinement barrier followed by stream start (src/index.tsx:312-333,
which also executes lines 320-322), one stream delta (src/index.tsx:338-350),
stream completion with the deduplicated sources and the work trace
(src/index.tsx:352-368), and a failure of the awaited stage
(the catch block, src/index.tsx:370-378). -/
inductive Ev
  | submit (input : String)
  | fanOutDone
  | refineDone
  | delta (d : String)
  | streamDone (srcs : List WebInfo) (w : Work)
  | fail (e : String)
deriving DecidableEq

/-- The validation guard `!userInput.trim() && !image` (src/index.tsx:242):
the trimmed input is empty — equivalently, every character of the input
is whitespace — and no image is attached. -/
def blankInput (input : String) : Bool :=
  input.data.all Char.isWhitespace

/-- One step of the runner.  A submit event is ignored while `isLoading`
is true because the form controls are `disabled={isLoading}`
(src/index.tsx:443-454); a delivered submission is rejected with no state
change when the trimmed input is empty and no image is attached
(src/index.tsx:242), and otherwise appends the user turn, sets the busy
flag and clears the attachment (src/index.tsx:246-250).  `refineDone`
performs lines 320-322: `setIsLoading(false)` and the placeholder append
happen when synthesis streaming starts.  `fail` is the catch block:
append exactly one error turn and clear the busy flag
(src/index.tsx:370-378). -/
def step (st : AppState) : Ev → AppState
  | Ev.submit input =>
      if st.isLoading then st
      else if blankInput input ∧ st.image = none then st
      else
        { st with
            messages := st.messages ++ [userMessage input st.image],
            isLoading := true,
            image := none,
            phase := Phase.fanOut }
  | Ev.fanOutDone =>
      if st.phase = Phase.fanOut then { st with phase := Phase.refine } else st
  | Ev.refineDone =>
      if st.phase = Phase.refine then
        { st with
            isLoading := false,
            messages := st.messages ++ [placeholderMessage],
            phase := Phase.streaming,
            buffer := "" }
      else st
  | Ev.delta d =>
      if st.phase = Phase.streaming then
        { st with
            buffer := st.buffer ++ d,
            messages := setLastText st.messages (st.buffer ++ d) }
      else st
  | Ev.streamDone srcs w =>
      if st.phase = Phase.streaming then
        { st with
            messages := finalizeTurn st.messages srcs w,
            phase := Phase.idle }
      else st
  | Ev.fail e =>
      { st with
          isLoading := false,
          messages := st.messages ++ [errorTurn e],
          phase := Phase.idle }

/-- Run the machine from the initial state over a list of events. -/
def runApp (evs : List Ev) : AppState :=
  evs.foldl step initState

/-! ### Single-flight discipline (claim C1) -/

/-- Phases during which the busy flag is supposed to block the form. -/
def busyPhase : Phase → Bool
  | Phase.fanOut => true
  | Phase.refine => true
  | _ => false

/-- Invariant: whenever the run is between submission and the synthesis
stream (fan-out or refinement in flight), `isLoading` is true, so the
disabled form blocks a second submission. -/
def loadingInv (st : AppState) : Bool :=
  !busyPhase st.phase || st.isLoading

/-- A trace that reaches mid-stream consumption: a run was submitted,
passed both barriers, streaming started (placeholder appended,
`setIsLoading(false)` executed, src/index.tsx:320-322) and one delta has
already been published; the run is still in flight. -/
def midStreamTrace : List Ev :=
  [Ev.submit "hi", Ev.fanOutDone, Ev.refineDone, Ev.delta "partial"]

/-- Claim C1 counterexample: while the synthesis stream of a run is still
being consumed (the placeholder turn is unfinalized), `isLoading` is
already false — `setIsLoading(false)` runs before the stream loop
(src/index.tsx:320) and the form is re-enabled — so a new submission is
accepted: it appends a fresh user turn and starts a second run rather
than being rejected or ignored. -/
theorem submission_accepted_mid_stream :
    (runApp midStreamTrace).phase = Phase.streaming
    ∧ (runApp midStreamTrace).isLoading = false
    ∧ (step (runApp midStreamTrace) (Ev.submit "again")).phase = Phase.fanOut
    ∧ (step (runApp midStreamTrace) (Ev.submit "again")).messages.length
        = (runApp midStreamTrace).messages.length + 1 := by
  decide

theorem step_preserves_loadingInv (st : AppState) (e : Ev)
    (h : loadingInv st = true) : loadingInv (step st e) = true := by
  cases e with
  | submit input =>
    simp only [step]
    split
    · exact h
    · split
      · exact h
      · simp [loadingInv]
  | fanOutDone =>
    simp only [step]
    split
    · rename_i hphase
      simp only [loadingInv, busyPhase, hphase] at h
      simp only [loadingInv, busyPhase]
      simpa using h
    · exact h
  | refineDone =>
    simp only [step]
    split
    · simp [loadingInv, busyPhase]
    · exact h
  | delta d =>
    simp only [step]
    split
    · rename_i hphase
      simp [loadingInv, busyPhase, hphase]
    · exact h
  | streamDone srcs w =>
    simp only [step]
    split
    · simp [loadingInv, busyPhase]
    · exact h
  | fail e =>
    simp [step, loadingInv, busyPhase]

theorem foldl_loadingInv (evs : List Ev) :
    ∀ st : AppState, loadingInv st = true
      → loadingInv (evs.foldl step st) = true := by
  induction evs with
  | nil => intro st h; exact h
  | cons e evs ih =>
    intro st h
    exact ih (step st e) (step_preserves_loadingInv st e h)

/-- Claim C1 (amended): the submission entry point ignores every new
submission while `isLoading` is true, and `isLoading` is true throughout
the fan-out and refinement stages of any reachable state — so no second
run can start before synthesis streaming begins.  The guard does not
extend over stream consumption: `setIsLoading(false)` runs when streaming
starts (src/index.tsx:320), after which a new submission is accepted (see
`submission_accepted_mid_stream`). -/
theorem single_flight_only_while_loading :
    (∀ (st : AppState) (input : String),
        step { st with isLoading := true } (Ev.submit input)
          = { st with isLoading := true })
    ∧ ∀ evs : List Ev, loadingInv (runApp evs) = true := by
  constructor
  · intro st input
    simp [step]
  · intro evs
    exact foldl_loadingInv evs initState rfl

/-! ### Failure handling (claim C2) -/

/-- A run that fails mid-stream after one delta was published
(the synthesis stream throws inside the `for await` loop,
src/index.tsx:338-350, landing in the catch block, src/index.tsx:370-378). -/
def midStreamFailTrace : List Ev :=
  [Ev.submit "hi", Ev.fanOutDone, Ev.refineDone, Ev.delta "partial",
    Ev.fail "boom"]

/-- Claim C2 counterexample: when the synthesis stream fails after a
delta was published, the catch block appends an error turn but does not
remove the placeholder turn, so the turn carrying the partial streamed
text "partial" remains visible in the log alongside the error turn. -/
theorem partial_text_remains_after_failure :
    (runApp midStreamFailTrace).messages.length = 3
    ∧ (runApp midStreamFailTrace).messages[1]?
        = some { role := Role.model
                 parts := ["partial"]
                 image := none
                 sources := none
                 work := none }
    ∧ (runApp midStreamFailTrace).messages[2]? = some (errorTurn "boom") := by
  decide

theorem dropLast_append_getLast? {α : Type} :
    ∀ (l : List α) (a : α), l.getLast? = some a → l.dropLast ++ [a] = l := by
  intro l
  induction l with
  | nil => intro a h; cases h
  | cons x t ih =>
    intro a h
    cases t with
    | nil =>
      cases h
      rfl
    | cons y t2 =>
      rw [List.getLast?_cons_cons] at h
      have := ih a h
      show x :: ((y :: t2).dropLast ++ [a]) = x :: (y :: t2)
      rw [this]

theorem map_work_setLastText (msgs : List Message) (t : String) :
    (setLastText msgs t).map Message.work = msgs.map Message.work := by
  cases h : msgs.getLast? with
  | none => simp only [setLastText, h]
  | some last =>
    simp only [setLastText, h]
    have hsplit := dropLast_append_getLast? msgs last h
    calc (msgs.dropLast
            ++ [{ last with parts := setFirstPart last.parts t }]).map Message.work
        = msgs.dropLast.map Message.work ++ [last.work] := by simp
      _ = (msgs.dropLast ++ [last]).map Message.work := by simp
      _ = msgs.map Message.work := by rw [hsplit]

/-- Claim C2 (amended): any stage failure appends exactly one error turn
(with no sources and no work trace) and clears the busy flag, and no
event other than stream completion ever attaches a WorkTrace to any turn
— so a failed run never contributes a WorkTrace and partial fan-out or
refinement outputs are never surfaced.  However, a synthesis-stream
failure that occurs after deltas were published does leave the partial
streamed text visible in the placeholder turn (see
`partial_text_remains_after_failure`): the catch block only appends, it
does not remove the partial turn. -/
theorem failure_discards_work_but_not_partial_text :
    ∀ (st : AppState) (input e d : String),
      step st (Ev.fail e)
        = { st with
            isLoading := false
            phase := Phase.idle
            messages := st.messages ++ [errorTurn e] }
      ∧ (errorTurn e).work = none
      ∧ (errorTurn e).sources = none
      ∧ (∃ k, ((step st (Ev.submit input)).messages.map Message.work)
            = st.messages.map Message.work ++ List.replicate k none)
      ∧ ((step st Ev.fanOutDone).messages.map Message.work)
          = st.messages.map Message.work
      ∧ (∃ k, ((step st Ev.refineDone).messages.map Message.work)
            = st.messages.map Message.work ++ List.replicate k none)
      ∧ ((step st (Ev.delta d)).messages.map Message.work)
          = st.messages.map Message.work
      ∧ ((step st (Ev.fail e)).messages.map Message.work)
          = st.messages.map Message.work ++ [none] := by
  intro st input e d
  refine ⟨rfl, rfl, rfl, ?_, ?_, ?_, ?_, ?_⟩
  · simp only [step]
    split
    · exact ⟨0, by simp⟩
    · split
      · exact ⟨0, by simp⟩
      · exact ⟨1, by simp [userMessage, List.replicate]⟩
  · simp only [step]
    split <;> rfl
  · simp only [step]
    split
    · exact ⟨1, by simp [placeholderMessage, List.replicate]⟩
    · exact ⟨0, by simp⟩
  · simp only [step]
    split
    · exact map_work_setLastText st.messages (st.buffer ++ d)
    · rfl
  · simp only [step]
    simp [errorTurn]

/-! ### Attachment validation (claim C8, src/index.tsx:203-217) -/

/-- The attachment-related component state: the `image` data-URL and the
`imageFile` (represented by its byte size), src/index.tsx:177-178. -/
structure AttachState where
  image : Option String
  imageFile : Option Nat
deriving DecidableEq

/-- The fixed attachment byte-size limit `4 * 1024 * 1024`
(src/index.tsx:206). -/
def sizeLimit : Nat := 4 * 1024 * 1024

/-- Embedding of `handleImageChange` (src/index.tsx:203-217): given the
selected file (size and data URL), reject it with no state change when
`file.size > 4 * 1024 * 1024`, otherwise record the file and its data. -/
def handleImageChange (st : AttachState) (file : Option (Nat × String)) :
    AttachState :=
  match file with
  | none => st
  | some fd =>
      if fd.1 > sizeLimit then st
      else { image := some fd.2, imageFile := some fd.1 }

/-- Claim C8: a submission whose text is all-whitespace (empty after
trimming) with no image attached is rejected by the guard at
src/index.tsx:242 with no state change — in particular the run never
enters the fan-out phase, which is where the first Model Client call is
issued (src/index.tsx:253-289) — and an attachment over the fixed
4 MiB limit leaves the attachment state unchanged (src/index.tsx:206-209),
so an oversize image can never be part of a later Model Client call. -/
theorem empty_submission_and_oversize_image_rejected
    (st : AppState) (ast : AttachState) (input data : String) (size : Nat)
    (h : blankInput input = true) (hsize : sizeLimit < size) :
    step { st with image := none, isLoading := false } (Ev.submit input)
      = { st with image := none, isLoading := false }
    ∧ handleImageChange ast (some (size, data)) = ast := by
  constructor
  · simp [step, h]
  · simp only [handleImageChange]
    rw [if_pos hsize]

/-- Witness for `empty_submission_and_oversize_image_rejected`: the empty
input with a 4 MiB + 1 byte attachment. -/
theorem empty_submission_rejected_witness :
    (blankInput "" = true ∧ sizeLimit < sizeLimit + 1)
    ∧ (step { initState with image := none, isLoading := false }
          (Ev.submit "")
        = { initState with image := none, isLoading := false }
      ∧ handleImageChange { image := none, imageFile := none }
          (some (sizeLimit + 1, "d"))
        = { image := none, imageFile := none }) :=
  ⟨⟨by decide, by decide⟩,
    empty_submission_and_oversize_image_rejected initState
      { image := none, imageFile := none } "" "d" (sizeLimit + 1)
      (by decide) (by decide)⟩

/-! ### History projection (claim C9, src/index.tsx:255-258) -/

/-- A request `Content` entry: only a role and text parts
(`{ role: msg.role, parts: msg.parts }`, src/index.tsx:256-257). -/
structure Content where
  role : Role
  parts : List String
deriving DecidableEq

/-- The projection applied to each prior turn (src/index.tsx:255-258). -/
def contentOf (m : Message) : Content :=
  { role := m.role, parts := m.parts }

/-- Embedding of `currentMessages.slice(0, -1).map(msg => ({ role:
msg.role, parts: msg.parts }))` (src/index.tsx:255-258). -/
def mainChatHistory (currentMessages : List Message) : List Content :=
  (currentMessages.dropLast).map contentOf

/-- Claim C9: the history sent with every model call of a run projects
each prior turn to role and text parts only — the `Content` type carries
no image, sources or work fields, and the projection is insensitive to
them, so images of earlier user turns never re-enter a request — and the
in-flight user turn (`currentMessages` ends with it, src/index.tsx:247)
is excluded by `slice(0, -1)` and carried separately as
`currentUserTurn` (src/index.tsx:273). -/
theorem history_projection_drops_metadata :
    ∀ (messages : List Message) (userMsg : Message),
      mainChatHistory (messages ++ [userMsg]) = messages.map contentOf
      ∧ ∀ m : Message,
          contentOf m
            = contentOf { role := m.role
                          parts := m.parts
                          image := none
                          sources := none
                          work := none } := by
  intro messages userMsg
  constructor
  · rw [mainChatHistory, List.dropLast_concat]
  · intro m
    rfl

/-! ### Finalization update (claim C10, src/index.tsx:352-368) -/

/-- Claim C10: the single completion update writes both fields of the
finalized turn at once — `work` is attached unconditionally on every
successful run, while `sources` is set to `undefined` (absent) when the
deduplicated citation list is empty and to the list itself otherwise
(`sources.length > 0 ? sources : undefined`, src/index.tsx:365). -/
theorem finalize_omits_empty_sources
    (msgs : List Message) (last : Message) (w : Work) (s : WebInfo)
    (srcs : List WebInfo) :
    finalizeTurn (msgs ++ [last]) [] w
      = msgs ++ [{ last with sources := none, work := some w }]
    ∧ finalizeTurn (msgs ++ [last]) (s :: srcs) w
      = msgs ++ [{ last with sources := some (s :: srcs), work := some w }] := by
  constructor
  · simp only [finalizeTurn, List.getLast?_concat, List.dropLast_concat]
    simp
  · simp only [finalizeTurn, List.getLast?_concat, List.dropLast_concat]
    simp

/-! ### Fan-out join semantics (claims C6 and C7)

`Promise.all` over the agent-call arrays (src/index.tsx:289 and 312) has
two faces we verify separately: its all-or-nothing error semantics (the
`await` throws as soon as any of the joined calls fails, so the code
after it never runs), and its index-stable result ordering (the joined
array is ordered by spawn index, not completion order). -/

/-- The error semantics of `await Promise.all(...)`: succeed with the
list of results only when every call succeeded, otherwise fail with the
error of a failed call. -/
def promiseAll {ε α : Type} : List (Except ε α) → Except ε (List α)
  | [] => Except.ok []
  | r :: rs =>
    match r with
    | Except.error e => Except.error e
    | Except.ok a =>
      match promiseAll rs with
      | Except.error e => Except.error e
      | Except.ok as2 => Except.ok (a :: as2)

/-- Call counts observed by a mock Model Client over one run. -/
structure ModelCalls where
  refinementCalls : Nat
  synthesisCalls : Nat
deriving DecidableEq

/-- Embedding of the stage sequencing of `handleSubmit`
(src/index.tsx:275-333) against oracles for the individual calls:
`initialResults` are the outcomes of the `NUM_AGENTS` fan-out calls
(src/index.tsx:277-289), and `refineOracle` gives the outcome of the
refinement call for a given agent index (src/index.tsx:294-312).  The
refinement promise array is only ever constructed after the fan-out
`await Promise.all` resolves successfully — on failure control jumps to
the catch block — and the synthesis call is only issued after the
refinement barrier resolves.  Returns the issued-call counts and the
overall outcome. -/
def runPipeline (initialResults : List (Except String String))
    (refineOracle : List String → Nat → Except String String) :
    ModelCalls × Except String (List String) :=
  match promiseAll initialResults with
  | Except.error e =>
      ({ refinementCalls := 0, synthesisCalls := 0 }, Except.error e)
  | Except.ok initialAnswers =>
    let refinementResults :=
      (initialAnswers.enum).map (fun p => refineOracle initialAnswers p.1)
    match promiseAll refinementResults with
    | Except.error e =>
        ({ refinementCalls := refinementResults.length, synthesisCalls := 0 },
          Except.error e)
    | Except.ok refinedAnswers =>
        ({ refinementCalls := refinementResults.length, synthesisCalls := 1 },
          Except.ok refinedAnswers)

theorem promiseAll_error_of_mem {ε α : Type}
    (rs : List (Except ε α)) (e : ε) (h : Except.error e ∈ rs) :
    ∃ e2, promiseAll rs = Except.error e2 := by
  induction rs with
  | nil => cases h
  | cons r rs ih =>
    cases r with
    | error e1 => exact ⟨e1, rfl⟩
    | ok a =>
      have hmem : Except.error e ∈ rs := by
        cases h with
        | tail _ h2 => exact h2
      obtain ⟨e2, he2⟩ := ih hmem
      refine ⟨e2, ?_⟩
      show (match promiseAll rs with
        | Except.error e => Except.error e
        | Except.ok as2 => Except.ok (a :: as2)) = Except.error e2
      rw [he2]

/-- Claim C6: if any one of the fan-out (initial) calls fails, the run
aborts as a whole — the result is the error, zero refinement calls and
zero synthesis calls are issued, and there is no retry (the oracles are
consulted at most once per call in `runPipeline`). -/
theorem fanout_failure_issues_no_downstream_calls
    (initialResults : List (Except String String))
    (refineOracle : List String → Nat → Except String String) (e : String)
    (h : Except.error e ∈ initialResults) :
    (runPipeline initialResults refineOracle).1.refinementCalls = 0
    ∧ (runPipeline initialResults refineOracle).1.synthesisCalls = 0
    ∧ ∃ e2, (runPipeline initialResults refineOracle).2
        = Except.error e2 := by
  obtain ⟨e2, he2⟩ := promiseAll_error_of_mem initialResults e h
  rw [runPipeline]
  rw [he2]
  exact ⟨rfl, rfl, e2, rfl⟩

/-- Witness for `fanout_failure_issues_no_downstream_calls`: four agent
calls of which the second fails. -/
theorem fanout_failure_witness :
    (Except.error "boom"
        ∈ [Except.ok "a", Except.error "boom", Except.ok "b", Except.ok "c"])
    ∧ ((runPipeline
          [Except.ok "a", Except.error "boom", Except.ok "b", Except.ok "c"]
          (fun _ _ => Except.ok "r")).1.refinementCalls = 0
      ∧ (runPipeline
          [Except.ok "a", Except.error "boom", Except.ok "b", Except.ok "c"]
          (fun _ _ => Except.ok "r")).1.synthesisCalls = 0
      ∧ ∃ e2, (runPipeline
          [Except.ok "a", Except.error "boom", Except.ok "b", Except.ok "c"]
          (fun _ _ => Except.ok "r")).2 = Except.error e2) :=
  ⟨by simp,
    fanout_failure_issues_no_downstream_calls
      [Except.ok "a", Except.error "boom", Except.ok "b", Except.ok "c"]
      (fun _ _ => Except.ok "r") "boom" (by simp)⟩

/-! ### Index-stable join ordering (claim C7) -/

/-- Insert into a completion schedule ordered by the given `le` test. -/
def insertBy {α : Type} (le : α → α → Bool) (a : α) : List α → List α
  | [] => [a]
  | b :: l => if le a b then a :: b :: l else b :: insertBy le a l

/-- Sort by the given `le` test (models which call completes first). -/
def sortBy {α : Type} (le : α → α → Bool) : List α → List α
  | [] => []
  | a :: l => insertBy le a (sortBy le l)

/-- The completion log of the `N` concurrent calls: the pairs
(spawn index, result) ordered by each call's latency, i.e. the order in
which the calls actually finish. -/
def completionOrder {α : Type} (latencies : List Nat) (results : List α) :
    List (Nat × α) :=
  sortBy (fun p q => Nat.ble (latencies.getD p.1 0) (latencies.getD q.1 0))
    (results.enum)

/-- The joined array `Promise.all` hands back: slot `i` receives the
result recorded for spawn index `i`, regardless of where that result
sits in the completion log. -/
def promiseAllJoin {α : Type} (completionLog : List (Nat × α)) (n : Nat) :
    List (Option α) :=
  (List.range n).map
    (fun i => (completionLog.find? (fun p => p.1 == i)).map Prod.snd)

theorem insertBy_perm {α : Type} (le : α → α → Bool) (a : α) (l : List α) :
    List.Perm (insertBy le a l) (a :: l) := by
  induction l with
  | nil => exact List.Perm.refl _
  | cons b l ih =>
    rw [insertBy]
    split
    · exact List.Perm.refl _
    · exact (ih.cons b).trans (List.Perm.swap a b l)

theorem sortBy_perm {α : Type} (le : α → α → Bool) (l : List α) :
    List.Perm (sortBy le l) l := by
  induction l with
  | nil => exact List.Perm.refl _
  | cons a l ih =>
    rw [sortBy]
    exact (insertBy_perm le a (sortBy le l)).trans (ih.cons a)

theorem find?_perm_enum {α : Type} {log : List (Nat × α)} {l : List α}
    (hperm : List.Perm log l.enum) (i : Nat) :
    (log.find? (fun p => p.1 == i)).map Prod.snd = l[i]? := by
  cases hfind : log.find? (fun p => p.1 == i) with
  | none =>
    have hnone := List.find?_eq_none.mp hfind
    cases hl : l[i]? with
    | none => rfl
    | some a =>
      exfalso
      have hlt : i < l.length := by
        cases Nat.lt_or_ge i l.length with
        | inl h2 => exact h2
        | inr h2 => rw [List.getElem?_eq_none h2] at hl; cases hl
      have hmem : (i, a) ∈ l.enum := by
        rw [List.mem_iff_getElem?]
        refine ⟨i, ?_⟩
        rw [getElem?_enum, hl]
        rfl
      have : (i, a) ∈ log := hperm.mem_iff.mpr hmem
      exact hnone (i, a) this (by simp)
  | some p =>
    have hpred := List.find?_some hfind
    have hpi : p.1 = i := by simpa using hpred
    have hmem : p ∈ log := List.mem_of_find?_eq_some hfind
    have hmem2 : p ∈ l.enum := hperm.mem_iff.mp hmem
    have hget : l[p.1]? = some p.2 := getElem?_of_mem_enum hmem2
    rw [← hpi, hget]
    rfl

theorem range_map_getElem? {α : Type} (l : List α) :
    (List.range l.length).map (fun i => l[i]?) = l.map some := by
  induction l with
  | nil => rfl
  | cons a l ih =>
    rw [List.length_cons, List.range_succ_eq_map, List.map_cons,
      List.map_map, List.map_cons]
    refine congrArg₂ List.cons (by simp) ?_
    rw [← ih]
    refine List.map_congr_left ?_
    intro i _
    simp

/-- Claim C7: for every list of results and every assignment of
completion latencies to the concurrent calls, joining the completion log
by spawn index returns exactly the results in spawn order — the result
of the call spawned at index `i` is the `i`-th entry of the joined array
no matter which call finishes first.  The statement is generic in the
result list, so it covers both the fan-out stage and the refinement
stage, which use the same `Promise.all` join (src/index.tsx:289,312). -/
theorem join_is_index_stable {α : Type} (results : List α)
    (latencies : List Nat) :
    promiseAllJoin (completionOrder latencies results) results.length
      = results.map some := by
  have hperm : List.Perm (completionOrder latencies results) results.enum :=
    sortBy_perm _ _
  rw [promiseAllJoin]
  rw [show (List.range results.length).map
        (fun i => ((completionOrder latencies results).find?
          (fun p => p.1 == i)).map Prod.snd)
      = (List.range results.length).map (fun i => results[i]?) from
    List.map_congr_left (fun i _ => find?_perm_enum hperm i)]
  exact range_map_getElem? results

end GeminiHeavy
